import Mathlib

/-!
Verification of the `llvm::sys::Path` class from
`llvm/lib/System/Win32/Path.cpp`.

A `Path` holds a single string (modelled as `List Char`).  All string
manipulation of the source (`std::string::rfind`, `erase`, `append`,
`substr`) is embedded as executable functions on `List Char`; mutating
methods of the C++ class become functions `Path → ... → Path × Bool`
returning the new object state and the C++ `bool` result.
-/

set_option maxRecDepth 10000

namespace LLVMSys

/-- `FlipBackSlashes`: replace every backslash by a forward slash. -/
def flipBackSlashes (s : List Char) : List Char :=
  s.map (fun c => if c = '\\' then '/' else c)

/-- `std::string::rfind(c, npos)`: index of the last occurrence of `c`,
`none` when `c` does not occur.  `rfind(c, pos)` with a bound is
expressed as `rfindChar c (s.take (pos+1))`. -/
def rfindChar (c : Char) : List Char → Option Nat
  | [] => none
  | a :: as =>
    match rfindChar c as with
    | some i => some (i + 1)
    | none => if a = c then some 0 else none

/-- C `isalpha` in the default locale (ASCII letters). -/
def isalpha (c : Char) : Bool :=
  ('a'.toNat ≤ c.toNat && c.toNat ≤ 'z'.toNat) ||
  ('A'.toNat ≤ c.toNat && c.toNat ≤ 'Z'.toNat)

/-- Membership in the `find_first_of` character set of `Path::isValid`:
backslash, `<`, `>`, `"`, `|`, and the control characters `\001`–`\037`. -/
def isIllegalChar (c : Char) : Bool :=
  c = '\\' || c = '<' || c = '>' || c = '"' || c = '|' ||
  (1 ≤ c.toNat && c.toNat ≤ 31)

/-- The `Path` class: a single string attribute `path`. -/
structure Path where
  path : List Char
deriving DecidableEq, Repr

/-- `Path::isValid()`:
empty strings are invalid; a colon may only be the second character,
preceded by a letter, with total length ≥ 3; none of the illegal
characters may occur; the string may not end in `.`, `./`, a space,
or `" /"`. -/
def Path.isValid (p : Path) : Bool :=
  if p.path = [] then false
  else
    (match rfindChar ':' p.path with
     | none => true
     | some pos =>
       decide (pos = 1) &&
       (match p.path with
        | c :: _ => isalpha c
        | [] => false) &&
       decide (3 ≤ p.path.length)) &&
    !(p.path.any isIllegalChar) &&
    !(decide (p.path.getLast? = some '.')) &&
    !(decide (2 ≤ p.path.length) &&
      decide (p.path.get? (p.path.length - 2) = some '.') &&
      decide (p.path.getLast? = some '/')) &&
    !(decide (p.path.getLast? = some ' ')) &&
    !(decide (2 ≤ p.path.length) &&
      decide (p.path.get? (p.path.length - 2) = some ' ') &&
      decide (p.path.getLast? = some '/'))

/-- `Path::isFile()`: valid and the last character is not `/`. -/
def Path.isFile (p : Path) : Bool :=
  p.isValid && decide (p.path.getLast? ≠ some '/')

/-- `Path::isDirectory()`: valid and the last character is `/`. -/
def Path.isDirectory (p : Path) : Bool :=
  p.isValid && decide (p.path.getLast? = some '/')

/-- Outcome of the validating constructor `Path::Path(std::string)`:
whether it threw, and the value of the `path` member when control left
the constructor (cleared just before the throw). -/
structure CtorOutcome where
  threw : Bool
  stored : List Char
deriving DecidableEq, Repr

/-- `Path::Path(std::string unverified_path)`: flips backslashes; an
empty input returns at once; a valid flipped string is kept; otherwise
the member is cleared and an exception is thrown. -/
def Path.construct (unverified : List Char) : CtorOutcome :=
  if unverified = [] then ⟨false, flipBackSlashes unverified⟩
  else if (Path.mk (flipBackSlashes unverified)).isValid then
    ⟨false, flipBackSlashes unverified⟩
  else ⟨true, []⟩

/-- The `while (last > 0 && a_path[last] == '/') last--;` loop of
`Path::setFile`, returning the final value of `last`; the argument is
the initial `last`. -/
def trailingNonSlashIdx (s : List Char) : Nat → Nat
  | 0 => 0
  | last + 1 =>
    if s.get? (last + 1) = some '/' then trailingNonSlashIdx s last
    else last + 1

/-- The string committed by `Path::setDirectory` before validation:
backslashes flipped, and a `/` appended when `last != 0` and the
(pre-flip) input does not already end in `/`. -/
def setDirString (a_path : List Char) : List Char :=
  if decide (a_path.length - 1 ≠ 0) && decide (a_path.getLast? ≠ some '/')
  then flipBackSlashes a_path ++ ['/'] else flipBackSlashes a_path

/-- `Path::setDirectory(a_path)`: reject empty input; build
`setDirString`; validate, rolling back on failure. -/
def Path.setDirectory (p : Path) (a_path : List Char) : Path × Bool :=
  if a_path.length = 0 then (p, false)
  else if (Path.mk (setDirString a_path)).isValid then
    (⟨setDirString a_path⟩, true)
  else (p, false)

/-- The string committed by `Path::setFile` before validation:
backslashes flipped, then `erase(last+1)` where `last` results from the
trailing-slash loop over the pre-flip input. -/
def setFileString (a_path : List Char) : List Char :=
  (flipBackSlashes a_path).take
    (trailingNonSlashIdx a_path (a_path.length - 1) + 1)

/-- `Path::setFile(a_path)`: reject empty input; build `setFileString`;
validate, rolling back on failure. -/
def Path.setFile (p : Path) (a_path : List Char) : Path × Bool :=
  if a_path.length = 0 then (p, false)
  else if (Path.mk (setFileString a_path)).isValid then
    (⟨setFileString a_path⟩, true)
  else (p, false)

/-- `Path::appendDirectory(dir)`: fails on a file-mode path; appends
`dir` and a trailing `/`; validates, rolling back on failure. -/
def Path.appendDirectory (p : Path) (dir : List Char) : Path × Bool :=
  if p.isFile then (p, false)
  else if (Path.mk (p.path ++ dir ++ ['/'])).isValid then
    (⟨p.path ++ dir ++ ['/']⟩, true)
  else (p, false)

/-- `Path::elideDirectory()`: fails on a file-mode path; finds the last
`/`; fails when it is at index 0 or absent; when it is the terminal
character, re-searches before it; erases from the found position to the
end.  No re-validation. -/
def Path.elideDirectory (p : Path) : Path × Bool :=
  if p.isFile then (p, false)
  else
    match rfindChar '/' p.path with
    | none => (p, false)
    | some slashpos =>
      if slashpos = 0 then (p, false)
      else
        match (if slashpos = p.path.length - 1
               then rfindChar '/' (p.path.take slashpos)
               else some slashpos) with
        | none => (p, false)
        | some sp => (⟨p.path.take sp⟩, true)

/-- `Path::appendFile(file)`: fails unless the path is directory-mode;
appends `file`; validates, rolling back on failure. -/
def Path.appendFile (p : Path) (file : List Char) : Path × Bool :=
  if !p.isDirectory then (p, false)
  else if (Path.mk (p.path ++ file)).isValid then (⟨p.path ++ file⟩, true)
  else (p, false)

/-- `Path::elideFile()`: fails on a directory-mode path; truncates
everything after the last `/`; fails when there is no `/`.  No
re-validation. -/
def Path.elideFile (p : Path) : Path × Bool :=
  if p.isDirectory then (p, false)
  else
    match rfindChar '/' p.path with
    | none => (p, false)
    | some slashpos => (⟨p.path.take (slashpos + 1)⟩, true)

/-- `Path::appendSuffix(suffix)`: fails on a directory-mode path;
appends `"." + suffix`; validates, rolling back on failure. -/
def Path.appendSuffix (p : Path) (suffix : List Char) : Path × Bool :=
  if p.isDirectory then (p, false)
  else if (Path.mk (p.path ++ '.' :: suffix)).isValid then
    (⟨p.path ++ '.' :: suffix⟩, true)
  else (p, false)

/-- `Path::elideSuffix()`: fails on a directory-mode path; when both a
`.` and a `/` occur and the last `.` is after the last `/`, erases from
that dot to the end; otherwise fails.  No re-validation. -/
def Path.elideSuffix (p : Path) : Path × Bool :=
  if p.isDirectory then (p, false)
  else
    match rfindChar '.' p.path, rfindChar '/' p.path with
    | some dotpos, some slashpos =>
      if slashpos < dotpos then (⟨p.path.take dotpos⟩, true)
      else (p, false)
    | _, _ => (p, false)

/-- `Path::GetDLLSuffix()`: `"dll"`. -/
def GetDLLSuffix : List Char := "dll".toList

/-- `Path::readable()`: a probe of the filesystem, modelled by an oracle
`fs` mapping a path string to whether `GetFileAttributes` succeeds. -/
def Path.readable (fs : List Char → Bool) (p : Path) : Bool :=
  fs p.path

/-- One `path.elideSuffix() && path.appendSuffix(suf) && path.readable()`
conjunct of `IsLibrary`, with C++ short-circuit state threading. -/
def tryForm (fs : List Char → Bool) (s : Path) (suf : List Char) :
    Path × Bool :=
  let re := s.elideSuffix
  if !re.2 then (re.1, false)
  else
    let ra := re.1.appendSuffix suf
    if !ra.2 then (ra.1, false)
    else (ra.1, ra.1.readable fs)

/-- The inner probe chain of `IsLibrary`: try the `dll` suffix, then
elide-and-retry with `a`, `o`, `bc`.  Returns the path state and whether
a readable candidate was found. -/
def probeSuffixes (fs : List Char → Bool) (p : Path) : Path × Bool :=
  let r1 := p.appendSuffix GetDLLSuffix
  if r1.2 && r1.1.readable fs then (r1.1, true) else
  let r2 := tryForm fs r1.1 "a".toList
  if r2.2 then (r2.1, true) else
  let r3 := tryForm fs r2.1 "o".toList
  if r3.2 then (r3.1, true) else
  let r4 := tryForm fs r3.1 "bc".toList
  if r4.2 then (r4.1, true) else (r4.1, false)

/-- `IsLibrary(path, basename)`: append `lib<basename>` and probe; only
when that very append fails, elide and probe the bare `<basename>`
forms; clear the path and report false when nothing was found. -/
def IsLibrary (fs : List Char → Bool) (p : Path) (basename : List Char) :
    Path × Bool :=
  let rf := p.appendFile ("lib".toList ++ basename)
  if rf.2 then
    let pr := probeSuffixes fs rf.1
    if pr.2 then pr else (⟨[]⟩, false)
  else
    let re := rf.1.elideFile
    if re.2 then
      let rb := re.1.appendFile basename
      if rb.2 then
        let pr := probeSuffixes fs rb.1
        if pr.2 then pr else (⟨[]⟩, false)
      else (⟨[]⟩, false)
    else (⟨[]⟩, false)

/-- One `result.setDirectory(dir) && IsLibrary(result, basename)` step of
`GetLibraryPath`. -/
def tryLibDir (fs : List Char → Bool) (basename dir : List Char)
    (result : Path) : Path × Bool :=
  let rs := result.setDirectory dir
  if rs.2 then IsLibrary fs rs.1 basename
  else (rs.1, false)

/-- The body of `Path::GetLibraryPath`: walk the caller-supplied
directories, then `/usr/lib/`, then `/lib/`; clear and return on total
failure. -/
def GetLibraryPathAux (fs : List Char → Bool) (basename : List Char) :
    List (List Char) → Path → Path
  | [], result =>
    let r1 := tryLibDir fs basename "/usr/lib/".toList result
    if r1.2 then r1.1 else
    let r2 := tryLibDir fs basename "/lib/".toList r1.1
    if r2.2 then r2.1 else ⟨[]⟩
  | I :: rest, result =>
    let r := tryLibDir fs basename I result
    if r.2 then r.1 else GetLibraryPathAux fs basename rest r.1

/-- `Path::GetLibraryPath(basename, LibPaths)` over the filesystem
oracle `fs`. -/
def GetLibraryPath (fs : List Char → Bool) (basename : List Char)
    (LibPaths : List (List Char)) : Path :=
  GetLibraryPathAux fs basename LibPaths ⟨[]⟩

/-- `Path::isBytecodeFile()`.  The filesystem is an oracle: `contents`
gives the bytes of a file (`none` when the file cannot be opened) and
`badbit` says whether the `std::ifstream` suffers a hard stream failure
(`f.bad()`); a short or failed extraction only sets the fail bit, which
the source never inspects.  `std::ifstream::read` stores the bytes it
could extract; the local `buffer` has `buffer[0]` zeroed and the other
three bytes uninitialised (`u1 u2 u3`).  `Except.error` models the
`ThrowErrno` call. -/
def Path.isBytecodeFile (contents : List Char → Option (List Char))
    (badbit : List Char → Bool) (u1 u2 u3 : Char) (p : Path) :
    Except (List Char) Bool :=
  let buffer0 : List Char := ['\x00', u1, u2, u3]
  let extracted := ((contents p.path).getD []).take 4
  let buffer := extracted ++ buffer0.drop extracted.length
  if badbit p.path then .error "can\x27t read file signature".toList
  else .ok (buffer == "llvc".toList || buffer == "llvm".toList)

/-! ### Lemmas about `rfindChar` -/

theorem rfindChar_append (c : Char) (xs ys : List Char) :
    rfindChar c (xs ++ ys) =
      match rfindChar c ys with
      | some i => some (xs.length + i)
      | none => rfindChar c xs := by
  induction xs with
  | nil =>
    cases h : rfindChar c ys <;> simp [rfindChar, h]
  | cons a as ih =>
    rw [List.cons_append]
    show (match rfindChar c (as ++ ys) with
          | some i => some (i + 1)
          | none => if a = c then some 0 else none) =
         (match rfindChar c ys with
          | some i => some ((a :: as).length + i)
          | none => rfindChar c (a :: as))
    rw [ih]
    cases h : rfindChar c ys with
    | none => rfl
    | some i =>
      simp only [Option.some.injEq, List.length_cons]
      omega

theorem rfindChar_append_some (c : Char) (xs ys : List Char) (i : Nat)
    (h : rfindChar c ys = some i) :
    rfindChar c (xs ++ ys) = some (xs.length + i) := by
  rw [rfindChar_append, h]

theorem rfindChar_append_none (c : Char) (xs ys : List Char)
    (h : rfindChar c ys = none) :
    rfindChar c (xs ++ ys) = rfindChar c xs := by
  rw [rfindChar_append, h]

theorem rfindChar_eq_none (c : Char) (s : List Char) (h : c ∉ s) :
    rfindChar c s = none := by
  induction s with
  | nil => rfl
  | cons a as ih =>
    have ha : a ≠ c := fun e => h (e ▸ List.mem_cons_self a as)
    have has : c ∉ as := fun e => h (List.mem_cons_of_mem a e)
    simp [rfindChar, ih has, ha]

theorem rfindChar_concat_self (c : Char) (xs : List Char) :
    rfindChar c (xs ++ [c]) = some xs.length := by
  have h : rfindChar c [c] = some 0 := by simp [rfindChar]
  simpa using rfindChar_append_some c xs [c] 0 h

theorem rfindChar_getLast : ∀ (s : List Char) (c : Char),
    s.getLast? = some c → rfindChar c s = some (s.length - 1)
  | [a], c, h => by
    simp only [List.getLast?_singleton, Option.some.injEq] at h
    subst h
    simp [rfindChar]
  | a :: b :: t, c, h => by
    have h' : (b :: t).getLast? = some c := by
      rwa [List.getLast?_cons_cons] at h
    have ih := rfindChar_getLast (b :: t) c h'
    show (match rfindChar c (b :: t) with
          | some i => some (i + 1)
          | none => if a = c then some 0 else none) = _
    rw [ih]
    simp only [Option.some.injEq, List.length_cons]
    omega

theorem rfindChar_get : ∀ (c : Char) (s : List Char) (i : Nat),
    rfindChar c s = some i → s.get? i = some c
  | c, [], i, h => by simp [rfindChar] at h
  | c, a :: as, i, h => by
    simp only [rfindChar] at h
    cases hr : rfindChar c as with
    | some j =>
      rw [hr] at h
      cases h
      simpa using rfindChar_get c as j hr
    | none =>
      rw [hr] at h
      by_cases ha : a = c
      · simp [ha] at h
        subst ha
        cases h
        rfl
      · simp [ha] at h

theorem rfindChar_lt (c : Char) (s : List Char) (i : Nat)
    (h : rfindChar c s = some i) : i < s.length :=
  (List.get?_eq_some.mp (rfindChar_get c s i h)).1

/-! ### Lemmas about the mode predicates -/

theorem isValid_ne_nil {p : Path} (h : p.isValid = true) : p.path ≠ [] := by
  intro hnil
  simp [Path.isValid, hnil] at h

theorem isDirectory_isValid {p : Path} (h : p.isDirectory = true) :
    p.isValid = true :=
  (Bool.and_eq_true _ _ |>.mp h).1

theorem isDirectory_getLast {p : Path} (h : p.isDirectory = true) :
    p.path.getLast? = some '/' := by
  have := (Bool.and_eq_true _ _ |>.mp h).2
  exact of_decide_eq_true this

theorem isFile_isValid {p : Path} (h : p.isFile = true) :
    p.isValid = true :=
  (Bool.and_eq_true _ _ |>.mp h).1

theorem isFile_getLast {p : Path} (h : p.isFile = true) :
    p.path.getLast? ≠ some '/' := by
  have := (Bool.and_eq_true _ _ |>.mp h).2
  exact of_decide_eq_true this

theorem isDirectory_eq_false_of_getLast {s : List Char} {c : Char}
    (h : s.getLast? = some c) (hc : c ≠ '/') :
    (Path.mk s).isDirectory = false := by
  simp [Path.isDirectory, h, hc]

theorem isFile_eq_false_of_getLast {s : List Char}
    (h : s.getLast? = some '/') :
    (Path.mk s).isFile = false := by
  simp [Path.isFile, h]

theorem getLast?_mem {l : List Char} {c : Char} (h : l.getLast? = some c) :
    c ∈ l := by
  obtain ⟨hne, rfl⟩ :=
    List.mem_getLast?_eq_getLast (l := l) (x := c) (Option.mem_def.mpr h)
  exact List.getLast_mem hne

theorem isDirectory_eq_false_of_isFile {p : Path} (h : p.isFile = true) :
    p.isDirectory = false := by
  cases hv : p.isValid <;>
    simp [Path.isDirectory, hv, isFile_getLast h]

theorem isFile_eq_false_of_isDirectory {p : Path} (h : p.isDirectory = true) :
    p.isFile = false := by
  cases hv : p.isValid <;>
    simp [Path.isFile, hv, isDirectory_getLast h]

/-! ### Success and rollback shapes of the validating mutators -/

theorem appendDirectory_success {p : Path} {n : List Char}
    (h : (p.appendDirectory n).2 = true) :
    (p.appendDirectory n).1 = ⟨p.path ++ n ++ ['/']⟩ ∧
    (Path.mk (p.path ++ n ++ ['/'])).isValid = true := by
  unfold Path.appendDirectory at h ⊢
  cases hf : p.isFile with
  | true => rw [hf] at h; simp at h
  | false =>
    by_cases hv : (Path.mk (p.path ++ n ++ ['/'])).isValid = true
    · rw [if_neg (by simp [hf]), if_pos hv]
      exact ⟨rfl, hv⟩
    · rw [if_neg (by simp [hf]), if_neg hv] at h
      simp at h

theorem appendFile_success {p : Path} {n : List Char}
    (h : (p.appendFile n).2 = true) :
    (p.appendFile n).1 = ⟨p.path ++ n⟩ ∧
    (Path.mk (p.path ++ n)).isValid = true ∧ p.isDirectory = true := by
  unfold Path.appendFile at h ⊢
  cases hd : p.isDirectory with
  | false => rw [hd] at h; simp at h
  | true =>
    by_cases hv : (Path.mk (p.path ++ n)).isValid = true
    · rw [if_neg (by simp [hd]), if_pos hv]
      exact ⟨rfl, hv, rfl⟩
    · rw [if_neg (by simp [hd]), if_neg hv] at h
      simp at h

theorem appendFile_failure {p : Path} {n : List Char}
    (h : (p.appendFile n).2 = false) : (p.appendFile n).1 = p := by
  unfold Path.appendFile at h ⊢
  cases hd : p.isDirectory with
  | false => rw [if_pos (by simp [hd])]
  | true =>
    by_cases hv : (Path.mk (p.path ++ n)).isValid = true
    · rw [if_neg (by simp [hd]), if_pos hv] at h
      simp at h
    · rw [if_neg (by simp [hd]), if_neg hv]

theorem appendSuffix_success {p : Path} {x : List Char}
    (h : (p.appendSuffix x).2 = true) :
    (p.appendSuffix x).1 = ⟨p.path ++ '.' :: x⟩ ∧
    (Path.mk (p.path ++ '.' :: x)).isValid = true ∧
    p.isDirectory = false := by
  unfold Path.appendSuffix at h ⊢
  cases hd : p.isDirectory with
  | true => rw [hd] at h; simp at h
  | false =>
    by_cases hv : (Path.mk (p.path ++ '.' :: x)).isValid = true
    · rw [if_neg (by simp [hd]), if_pos hv]
      exact ⟨rfl, hv, rfl⟩
    · rw [if_neg (by simp [hd]), if_neg hv] at h
      simp at h

theorem appendSuffix_failure {p : Path} {x : List Char}
    (h : (p.appendSuffix x).2 = false) : (p.appendSuffix x).1 = p := by
  unfold Path.appendSuffix at h ⊢
  cases hd : p.isDirectory with
  | true => rw [if_pos (by simp [hd])]
  | false =>
    by_cases hv : (Path.mk (p.path ++ '.' :: x)).isValid = true
    · rw [if_neg (by simp [hd]), if_pos hv] at h
      simp at h
    · rw [if_neg (by simp [hd]), if_neg hv]

theorem appendSuffix_of_isDirectory {p : Path} (x : List Char)
    (hd : p.isDirectory = true) : p.appendSuffix x = (p, false) := by
  simp [Path.appendSuffix, hd]

theorem elideSuffix_of_isDirectory {p : Path} (hd : p.isDirectory = true) :
    p.elideSuffix = (p, false) := by
  simp [Path.elideSuffix, hd]

theorem elideFile_of_isDirectory {p : Path} (hd : p.isDirectory = true) :
    p.elideFile = (p, false) := by
  simp [Path.elideFile, hd]

/-! ### Commit-or-rollback lemmas for the five validating mutators -/

theorem setDirectory_commit_or_rollback (p : Path) (s : List Char) :
    ((p.setDirectory s).2 = true → (p.setDirectory s).1.isValid = true) ∧
    ((p.setDirectory s).2 = false → (p.setDirectory s).1 = p) := by
  unfold Path.setDirectory
  split
  · simp
  · split
    · next hv => simpa using hv
    · simp

theorem setFile_commit_or_rollback (p : Path) (s : List Char) :
    ((p.setFile s).2 = true → (p.setFile s).1.isValid = true) ∧
    ((p.setFile s).2 = false → (p.setFile s).1 = p) := by
  unfold Path.setFile
  split
  · simp
  · split
    · next hv => simpa using hv
    · simp

theorem appendDirectory_commit_or_rollback (p : Path) (s : List Char) :
    ((p.appendDirectory s).2 = true →
      (p.appendDirectory s).1.isValid = true) ∧
    ((p.appendDirectory s).2 = false → (p.appendDirectory s).1 = p) := by
  unfold Path.appendDirectory
  split
  · simp
  · split
    · next hv => simpa using hv
    · simp

theorem appendFile_commit_or_rollback (p : Path) (s : List Char) :
    ((p.appendFile s).2 = true → (p.appendFile s).1.isValid = true) ∧
    ((p.appendFile s).2 = false → (p.appendFile s).1 = p) := by
  unfold Path.appendFile
  split
  · simp
  · split
    · next hv => simpa using hv
    · simp

theorem appendSuffix_commit_or_rollback (p : Path) (s : List Char) :
    ((p.appendSuffix s).2 = true → (p.appendSuffix s).1.isValid = true) ∧
    ((p.appendSuffix s).2 = false → (p.appendSuffix s).1 = p) := by
  unfold Path.appendSuffix
  split
  · simp
  · split
    · next hv => simpa using hv
    · simp

/-! ### Claim C1 -/

/-- C1 counterexample: the valid file path `/a/b .txt` is taken by
`elideSuffix()` to the non-empty string `/a/b ` (trailing space), which
fails `isValid()`; `elideSuffix` commits it and returns true, so the
claimed invariant does not survive the elide mutators. -/
theorem elideSuffix_breaks_validity_invariant :
    Path.isValid ⟨"/a/b .txt".toList⟩ = true ∧
    Path.elideSuffix ⟨"/a/b .txt".toList⟩ = (⟨"/a/b ".toList⟩, true) ∧
    "/a/b ".toList ≠ ([] : List Char) ∧
    Path.isValid ⟨"/a/b ".toList⟩ = false := by decide

/-- C1 (amended): the five validating mutators (`setDirectory`,
`setFile`, `appendDirectory`, `appendFile`, `appendSuffix`) either
commit a string satisfying `isValid()` (returning true) or restore the
previous string (returning false); the `elide*` mutators erase without
re-validating and are not covered. -/
theorem validating_mutators_preserve_validity (p : Path) (s : List Char) :
    (((p.setDirectory s).2 = true → (p.setDirectory s).1.isValid = true) ∧
     ((p.setDirectory s).2 = false → (p.setDirectory s).1 = p)) ∧
    (((p.setFile s).2 = true → (p.setFile s).1.isValid = true) ∧
     ((p.setFile s).2 = false → (p.setFile s).1 = p)) ∧
    (((p.appendDirectory s).2 = true →
        (p.appendDirectory s).1.isValid = true) ∧
     ((p.appendDirectory s).2 = false → (p.appendDirectory s).1 = p)) ∧
    (((p.appendFile s).2 = true → (p.appendFile s).1.isValid = true) ∧
     ((p.appendFile s).2 = false → (p.appendFile s).1 = p)) ∧
    (((p.appendSuffix s).2 = true → (p.appendSuffix s).1.isValid = true) ∧
     ((p.appendSuffix s).2 = false → (p.appendSuffix s).1 = p)) :=
  ⟨setDirectory_commit_or_rollback p s,
   setFile_commit_or_rollback p s,
   appendDirectory_commit_or_rollback p s,
   appendFile_commit_or_rollback p s,
   appendSuffix_commit_or_rollback p s⟩

/-- Witness for C1 (amended) at concrete inputs: a committed
`setDirectory` result is valid, and a failing `appendSuffix` on a
directory path leaves it unchanged. -/
theorem validating_mutators_preserve_validity_witness :
    Path.isValid (Path.setDirectory ⟨[]⟩ "/a/".toList).1 = true ∧
    (Path.appendSuffix ⟨"/a/".toList⟩ "x".toList).1 = ⟨"/a/".toList⟩ := by
  have h1 := validating_mutators_preserve_validity ⟨[]⟩ "/a/".toList
  have h2 := validating_mutators_preserve_validity ⟨"/a/".toList⟩ "x".toList
  exact ⟨h1.1.1 (by decide), h2.2.2.2.2.2 (by decide)⟩

/-! ### Claim C2 -/

/-- C2 counterexample: for the directory path `/a/` (which contains a
separator) and the separator-free name `b`, `appendDirectory`
succeeds giving `/a/b/`, but `elideDirectory()` then yields `/a` —
the trailing slash of the original path is lost, so `p` is not
restored. -/
theorem appendDirectory_elideDirectory_not_roundtrip :
    Path.isDirectory ⟨"/a/".toList⟩ = true ∧
    '/' ∈ "/a/".toList ∧
    '/' ∉ "b".toList ∧
    (Path.appendDirectory ⟨"/a/".toList⟩ "b".toList).2 = true ∧
    Path.elideDirectory (Path.appendDirectory ⟨"/a/".toList⟩ "b".toList).1 =
      (⟨"/a".toList⟩, true) ∧
    (⟨"/a".toList⟩ : Path) ≠ ⟨"/a/".toList⟩ := by decide

/-- C2 (amended): for a directory-mode `p` and a separator-free name
`n`, whenever `appendDirectory(n)` succeeds, the following
`elideDirectory()` succeeds and yields `p` with its trailing `/`
removed (`p.path.dropLast`) — never `p` itself. -/
theorem appendDirectory_elideDirectory_roundtrip
    (p : Path) (n : List Char) (hd : p.isDirectory = true)
    (hn : '/' ∉ n) (hap : (p.appendDirectory n).2 = true) :
    Path.elideDirectory (p.appendDirectory n).1 =
      (⟨p.path.dropLast⟩, true) := by
  obtain ⟨h1, hv⟩ := appendDirectory_success hap
  rw [h1]
  have hpne : p.path ≠ [] := isValid_ne_nil (isDirectory_isValid hd)
  have hlast := isDirectory_getLast hd
  have hlen : 0 < p.path.length := List.length_pos.mpr hpne
  have hrf : rfindChar '/' (p.path ++ n ++ ['/']) =
      some ((p.path ++ n).length) := rfindChar_concat_self '/' (p.path ++ n)
  have hfile : (Path.mk (p.path ++ n ++ ['/'])).isFile = false :=
    isFile_eq_false_of_getLast (by simp)
  have htake : (p.path ++ n ++ ['/']).take ((p.path ++ n).length) =
      p.path ++ n := List.take_left _ _
  have hrf2 : rfindChar '/' (p.path ++ n) = some (p.path.length - 1) := by
    rw [rfindChar_append_none '/' p.path n (rfindChar_eq_none '/' n hn)]
    exact rfindChar_getLast p.path '/' hlast
  have hL0 : ¬((p.path ++ n).length = 0) := by
    rw [List.length_append]
    omega
  have hterm : (p.path ++ n).length = (p.path ++ n ++ ['/']).length - 1 := by
    simp
  unfold Path.elideDirectory
  simp only [hfile, Bool.false_eq_true, if_false, hrf]
  rw [if_neg hL0, if_pos hterm, htake, hrf2]
  simp only []
  have hfin : (p.path ++ n ++ ['/']).take (p.path.length - 1) =
      p.path.dropLast := by
    rw [List.append_assoc, List.take_append_of_le_length (by omega),
       List.dropLast_eq_take]
  rw [hfin]

/-- Witness for C2 (amended) at `p = /u/v/`, `n = w`: the composition
returns `/u/v` (the original without its trailing slash). -/
theorem appendDirectory_elideDirectory_roundtrip_witness :
    Path.elideDirectory
        (Path.appendDirectory ⟨"/u/v/".toList⟩ "w".toList).1 =
      (⟨"/u/v/".toList.dropLast⟩, true) :=
  appendDirectory_elideDirectory_roundtrip ⟨"/u/v/".toList⟩ "w".toList
    (by decide) (by decide) (by decide)

/-! ### Claim C3 -/

/-- C3 counterexample: `setDirectory("a")` commits the string `a`
with no trailing slash (the source only appends `/` when `last != 0`),
although `"a"` is not exactly `"/"`. -/
theorem setDirectory_single_char_no_slash :
    Path.setDirectory ⟨[]⟩ "a".toList = (⟨"a".toList⟩, true) ∧
    "a".toList ≠ "/".toList ∧
    ("a".toList).getLast? ≠ some '/' := by decide

/-- Modelled from the amended claim wording: the string `setDirectory`
commits is the input with backslashes flipped, and a `/` appended
unless the input has length 1 or (pre-normalization) already ends in
`/`. -/
def setDirStringSpec (a_path : List Char) : List Char :=
  if a_path.length = 1 ∨ a_path.getLast? = some '/' then
    flipBackSlashes a_path
  else flipBackSlashes a_path ++ ['/']

/-- Modelled from the amended claim wording of `setDirectory`: reject
empty input outright; build `setDirStringSpec`; validate; on failure
restore the previous value and return false (no throw). -/
def setDirectorySpec (p : Path) (a_path : List Char) : Path × Bool :=
  if a_path.length = 0 then (p, false)
  else if (Path.mk (setDirStringSpec a_path)).isValid then
    (⟨setDirStringSpec a_path⟩, true)
  else (p, false)

theorem setDirString_eq_spec (s : List Char) (h : s ≠ []) :
    setDirString s = setDirStringSpec s := by
  have hl : 0 < s.length := List.length_pos.mpr h
  unfold setDirString setDirStringSpec
  by_cases h1 : s.length = 1
  · rw [if_pos (Or.inl h1)]
    have h2 : ¬(s.length - 1 ≠ 0) := by omega
    simp [h2]
  · by_cases h2 : s.getLast? = some '/'
    · rw [if_pos (Or.inr h2)]
      simp [h2]
    · rw [if_neg
        (show ¬(s.length = 1 ∨ s.getLast? = some '/') from by tauto)]
      have h3 : s.length - 1 ≠ 0 := by omega
      rw [if_pos (show (decide (s.length - 1 ≠ 0) &&
        decide (s.getLast? ≠ some '/')) = true from by simp [h2, h3])]

/-- C3 (amended): `setDirectory` rejects empty input, flips
backslashes, appends a trailing `/` unless the input has length 1 or
already ends in `/`, validates, and on failure restores the previous
value and returns false — i.e. it coincides with the function written
from that description. -/
theorem setDirectory_matches_spec (p : Path) (s : List Char) :
    p.setDirectory s = setDirectorySpec p s := by
  unfold Path.setDirectory setDirectorySpec
  by_cases h0 : s.length = 0
  · rw [if_pos h0, if_pos h0]
  · have hne : s ≠ [] := by
      intro e
      subst e
      simp at h0
    rw [setDirString_eq_spec s hne]

/-! ### Claim C5 -/

/-- C5 counterexample: the empty input is accepted by the constructor
without any error, although the empty string fails `isValid()` —
validation-failure does not always signal a construction error. -/
theorem construct_empty_skips_validation :
    (Path.construct []).threw = false ∧
    (Path.construct []).stored = [] ∧
    Path.isValid ⟨flipBackSlashes []⟩ = false := by decide

/-- C5 (amended): for non-empty input the constructor validates the
flipped string immediately; on failure the stored string is cleared and
the error is signalled (throw); on success the flipped string is
stored. -/
theorem construct_validates_nonempty (s : List Char) (h : s ≠ []) :
    (Path.isValid ⟨flipBackSlashes s⟩ = false →
      Path.construct s = ⟨true, []⟩) ∧
    (Path.isValid ⟨flipBackSlashes s⟩ = true →
      Path.construct s = ⟨false, flipBackSlashes s⟩) := by
  unfold Path.construct
  rw [if_neg h]
  constructor
  · intro hv
    rw [if_neg (by simp [hv])]
  · intro hv
    rw [if_pos hv]

/-- Witness for C5 (amended): `Path("foo.")` throws with a cleared
string, `Path("/a")` stores `/a`. -/
theorem construct_validates_nonempty_witness :
    Path.construct "foo.".toList = ⟨true, []⟩ ∧
    Path.construct "/a".toList = ⟨false, flipBackSlashes "/a".toList⟩ :=
  ⟨(construct_validates_nonempty "foo.".toList (by decide)).1 (by decide),
   (construct_validates_nonempty "/a".toList (by decide)).2 (by decide)⟩

/-! ### Claim C6 -/

/-- C6: over a valid path, `isDirectory` and `isFile` are mutually
exclusive and exhaustive, with `isDirectory` holding exactly when the
last character is `/`; an invalid (in particular empty) path is
neither. -/
theorem mode_exclusivity (p : Path) :
    (p.isValid = true →
      (p.isDirectory = !p.isFile) ∧
      (p.isDirectory = true ↔ p.path.getLast? = some '/')) ∧
    (p.isValid = false → p.isDirectory = false ∧ p.isFile = false) := by
  constructor
  · intro h
    constructor
    · cases hl : decide (p.path.getLast? = some '/') <;>
        simp_all [Path.isDirectory, Path.isFile]
    · simp [Path.isDirectory, h]
  · intro h
    simp [Path.isDirectory, Path.isFile, h]

/-- Witness for C6 at `/a/` (valid directory) and the empty path
(invalid). -/
theorem mode_exclusivity_witness :
    (Path.isDirectory ⟨"/a/".toList⟩ = !Path.isFile ⟨"/a/".toList⟩) ∧
    (Path.isDirectory ⟨[]⟩ = false ∧ Path.isFile ⟨[]⟩ = false) :=
  ⟨((mode_exclusivity ⟨"/a/".toList⟩).1 (by decide)).1,
   (mode_exclusivity ⟨[]⟩).2 (by decide)⟩

/-! ### Claim C10 -/

/-- C10: on a file-mode path with no `/` at all, `elideSuffix` returns
false and leaves the path unchanged, even when a `.` is present. -/
theorem elideSuffix_requires_separator (p : Path) (hf : p.isFile = true)
    (hs : '/' ∉ p.path) : p.elideSuffix = (p, false) := by
  have hd : p.isDirectory = false := isDirectory_eq_false_of_isFile hf
  unfold Path.elideSuffix
  rw [hd, rfindChar_eq_none '/' p.path hs]
  cases hdot : rfindChar '.' p.path <;> simp

/-- Witness for C10 at the dotted, slash-free file path `b.txt`. -/
theorem elideSuffix_requires_separator_witness :
    Path.elideSuffix ⟨"b.txt".toList⟩ = (⟨"b.txt".toList⟩, false) :=
  elideSuffix_requires_separator ⟨"b.txt".toList⟩ (by decide) (by decide)

/-! ### Claim C7 -/

theorem isValid_not_end_dot {s : List Char} (h : s.getLast? = some '.') :
    (Path.mk s).isValid = false := by
  by_cases hs : s = []
  · subst hs
    decide
  · simp [Path.isValid, hs, h]

theorem rfindChar_cons_self (c : Char) (x : List Char) :
    ∃ j, rfindChar c (c :: x) = some j ∧ j ≤ x.length := by
  cases h : rfindChar c x with
  | some i =>
    refine ⟨i + 1, ?_, ?_⟩
    · simp [rfindChar, h]
    · have := rfindChar_lt c x i h
      omega
  | none =>
    refine ⟨0, ?_, ?_⟩
    · simp [rfindChar, h]
    · omega

/-- `elideFile` on a directory-mode path extended by a non-empty,
slash-free tail truncates back to the directory and returns true. -/
theorem elideFile_appended (p : Path) (t : List Char)
    (hd : p.isDirectory = true) (ht : '/' ∉ t) (hne : t ≠ []) :
    (Path.mk (p.path ++ t)).elideFile = (⟨p.path⟩, true) := by
  have hlast := isDirectory_getLast hd
  have hpne : p.path ≠ [] := isValid_ne_nil (isDirectory_isValid hd)
  have hlen : 0 < p.path.length := List.length_pos.mpr hpne
  obtain ⟨c, hc⟩ : ∃ c, t.getLast? = some c := by
    cases hgl : t.getLast? with
    | none => exact absurd (List.getLast?_eq_none_iff.mp hgl) hne
    | some c => exact ⟨c, rfl⟩
  have hcne : c ≠ '/' := fun e => ht (e ▸ getLast?_mem hc)
  have hgl2 : (p.path ++ t).getLast? = some c := by
    rw [List.getLast?_append_of_ne_nil _ hne]
    exact hc
  have hdir : (Path.mk (p.path ++ t)).isDirectory = false :=
    isDirectory_eq_false_of_getLast hgl2 hcne
  have hrf : rfindChar '/' (p.path ++ t) = some (p.path.length - 1) := by
    rw [rfindChar_append_none '/' p.path t (rfindChar_eq_none '/' t ht)]
    exact rfindChar_getLast p.path '/' hlast
  unfold Path.elideFile
  simp only [hdir, Bool.false_eq_true, if_false, hrf]
  have hstep : p.path.length - 1 + 1 = p.path.length := by omega
  rw [hstep, List.take_left]

/-- `elideSuffix` on a directory-mode path extended by a non-empty,
slash-free, dot-free name is a no-op returning false: the only dots
are inside the directory part, before its last slash. -/
theorem elideSuffix_appended_no_dot (p : Path) (n : List Char)
    (hd : p.isDirectory = true) (hn1 : '/' ∉ n) (hn2 : '.' ∉ n)
    (hn0 : n ≠ []) :
    (Path.mk (p.path ++ n)).elideSuffix = (⟨p.path ++ n⟩, false) := by
  have hlast := isDirectory_getLast hd
  have hpne : p.path ≠ [] := isValid_ne_nil (isDirectory_isValid hd)
  have hlen : 0 < p.path.length := List.length_pos.mpr hpne
  obtain ⟨c, hc⟩ : ∃ c, n.getLast? = some c := by
    cases hgl : n.getLast? with
    | none => exact absurd (List.getLast?_eq_none_iff.mp hgl) hn0
    | some c => exact ⟨c, rfl⟩
  have hcne : c ≠ '/' := fun e => hn1 (e ▸ getLast?_mem hc)
  have hgl2 : (p.path ++ n).getLast? = some c := by
    rw [List.getLast?_append_of_ne_nil _ hn0]
    exact hc
  have hdir : (Path.mk (p.path ++ n)).isDirectory = false :=
    isDirectory_eq_false_of_getLast hgl2 hcne
  have hrfS : rfindChar '/' (p.path ++ n) = some (p.path.length - 1) := by
    rw [rfindChar_append_none '/' p.path n (rfindChar_eq_none '/' n hn1)]
    exact rfindChar_getLast p.path '/' hlast
  have hrfD : rfindChar '.' (p.path ++ n) = rfindChar '.' p.path :=
    rfindChar_append_none '.' p.path n (rfindChar_eq_none '.' n hn2)
  unfold Path.elideSuffix
  simp only [hdir, Bool.false_eq_true, if_false, hrfD, hrfS]
  cases hdp : rfindChar '.' p.path with
  | none => rfl
  | some d =>
    have hdlt : d < p.path.length := rfindChar_lt '.' p.path d hdp
    have hdget : p.path.get? d = some '.' := rfindChar_get '.' p.path d hdp
    have hlget : p.path.get? (p.path.length - 1) = some '/' := by
      rw [List.get?_eq_getElem?, ← List.getLast?_eq_getElem?]
      exact hlast
    have hdne : d ≠ p.path.length - 1 := by
      intro e
      rw [e, hlget] at hdget
      simp at hdget
    have hnc : ¬(p.path.length - 1 < d) := by omega
    simp only []
    rw [if_neg hnc]

/-- `elideSuffix` after `appendSuffix` on a directory-mode path plus a
slash-free name: removes from the last dot of the `"." ++ x` block. -/
theorem elideSuffix_appended_dot (p : Path) (n x : List Char) (j : Nat)
    (hd : p.isDirectory = true) (hn1 : '/' ∉ n)
    (hx : '/' ∉ x) (hx0 : x ≠ []) (hj : rfindChar '.' ('.' :: x) = some j) :
    (Path.mk ((p.path ++ n) ++ '.' :: x)).elideSuffix =
      (⟨(p.path ++ n) ++ ('.' :: x).take j⟩, true) := by
  have hlast := isDirectory_getLast hd
  have hpne : p.path ≠ [] := isValid_ne_nil (isDirectory_isValid hd)
  have hlen : 0 < p.path.length := List.length_pos.mpr hpne
  obtain ⟨c, hc⟩ : ∃ c, x.getLast? = some c := by
    cases hgl : x.getLast? with
    | none => exact absurd (List.getLast?_eq_none_iff.mp hgl) hx0
    | some c => exact ⟨c, rfl⟩
  have hcne : c ≠ '/' := fun e => hx (e ▸ getLast?_mem hc)
  have hgl2 : ((p.path ++ n) ++ '.' :: x).getLast? = some c := by
    rw [List.getLast?_append_of_ne_nil _ (by simp)]
    rw [show ('.' :: x) = ['.'] ++ x from rfl,
        List.getLast?_append_of_ne_nil _ hx0]
    exact hc
  have hdirF : (Path.mk ((p.path ++ n) ++ '.' :: x)).isDirectory = false :=
    isDirectory_eq_false_of_getLast hgl2 hcne
  have hdot : rfindChar '.' ((p.path ++ n) ++ '.' :: x) =
      some ((p.path ++ n).length + j) :=
    rfindChar_append_some '.' _ _ j hj
  have hsl : '/' ∉ ('.' :: x) := by
    intro hm
    rcases List.mem_cons.mp hm with h1 | h2
    · exact absurd h1 (by decide)
    · exact hx h2
  have hslash : rfindChar '/' ((p.path ++ n) ++ '.' :: x) =
      some (p.path.length - 1) := by
    rw [rfindChar_append_none '/' _ _ (rfindChar_eq_none '/' _ hsl)]
    rw [rfindChar_append_none '/' _ _ (rfindChar_eq_none '/' n hn1)]
    exact rfindChar_getLast p.path '/' hlast
  have hcond : p.path.length - 1 < (p.path ++ n).length + j := by
    rw [List.length_append]
    omega
  unfold Path.elideSuffix
  simp only [hdirF, Bool.false_eq_true, if_false, hdot, hslash]
  rw [if_pos hcond, List.take_append]

/-- C7: for every directory-mode `p` and names `n`, `x` without
separators, with `n` dot-free (the appended file has no pre-existing
suffix), the composition
`p.appendFile(n).appendSuffix(x).elideSuffix().elideFile()` restores
`p` exactly — in every branch, including the ones where an append
fails and the mode gates block the subsequent elides. -/
theorem append_suffix_elide_roundtrip (p : Path) (n x : List Char)
    (hd : p.isDirectory = true) (hn1 : '/' ∉ n) (hn2 : '.' ∉ n)
    (hx : '/' ∉ x) :
    ((((p.appendFile n).1.appendSuffix x).1.elideSuffix).1.elideFile).1
      = p := by
  have hpe : (⟨p.path⟩ : Path) = p := rfl
  cases haf : (p.appendFile n).2 with
  | false =>
    rw [appendFile_failure haf]
    simp [appendSuffix_of_isDirectory x hd, elideSuffix_of_isDirectory hd,
          elideFile_of_isDirectory hd]
  | true =>
    obtain ⟨e1, hv1, _⟩ := appendFile_success haf
    rw [e1]
    by_cases hn0 : n = []
    · subst hn0
      rw [List.append_nil, hpe]
      simp [appendSuffix_of_isDirectory x hd, elideSuffix_of_isDirectory hd,
            elideFile_of_isDirectory hd]
    · cases has : ((Path.mk (p.path ++ n)).appendSuffix x).2 with
      | false =>
        rw [appendSuffix_failure has,
            elideSuffix_appended_no_dot p n hd hn1 hn2 hn0]
        simp only []
        rw [elideFile_appended p n hd hn1 hn0]
      | true =>
        obtain ⟨e2, hv2, _⟩ := appendSuffix_success has
        rw [e2]
        have hx0 : x ≠ [] := by
          intro e
          subst e
          have hgl : ((p.path ++ n) ++ '.' :: ([] : List Char)).getLast?
              = some '.' := by simp
          rw [isValid_not_end_dot hgl] at hv2
          simp at hv2
        obtain ⟨j, hj, _⟩ := rfindChar_cons_self '.' x
        rw [elideSuffix_appended_dot p n x j hd hn1 hx hx0 hj]
        simp only []
        rw [List.append_assoc]
        have htk : '/' ∉ n ++ ('.' :: x).take j := by
          intro hm
          rcases List.mem_append.mp hm with h1 | h2
          · exact hn1 h1
          · rcases List.mem_cons.mp (List.take_subset _ _ h2) with h3 | h4
            · exact absurd h3 (by decide)
            · exact hx h4
        have htne : n ++ ('.' :: x).take j ≠ [] := by
          simp [hn0]
        rw [elideFile_appended p _ hd htk htne]

/-- Witness for C7 at `p = /a/`, `n = b`, `x = txt`. -/
theorem append_suffix_elide_roundtrip_witness :
    ((((Path.appendFile ⟨"/a/".toList⟩ "b".toList).1.appendSuffix
        "txt".toList).1.elideSuffix).1.elideFile).1 = ⟨"/a/".toList⟩ :=
  append_suffix_elide_roundtrip ⟨"/a/".toList⟩ "b".toList "txt".toList
    (by decide) (by decide) (by decide) (by decide)

/-! ### Claim C8 -/

/-- Modelled from the spec wording (C8): split a string at its last
slash into the part up to and including that slash and the part after
it; `none` when there is no slash. -/
def splitLastSlash : List Char → Option (List Char × List Char)
  | [] => none
  | a :: as =>
    match splitLastSlash as with
    | some (pre, post) => some (a :: pre, post)
    | none => if a = '/' then some ([a], as) else none

/-- Modelled from the spec wording (C8): remove, from a segment, the
last `.` and everything from it onward; `none` when the segment
contains no dot. -/
def removeFromLastDot : List Char → Option (List Char)
  | [] => none
  | a :: as =>
    match removeFromLastDot as with
    | some t => some (a :: t)
    | none => if a = '.' then some [] else none

/-- Modelled from the spec wording of `elideSuffix` (C8): on a
non-directory path, the suffix is the text from the last `.` occurring
after the last `/` through the end; removing it keeps the directory
part and the stripped final segment. -/
def elideSuffixSpec (p : Path) : Path × Bool :=
  if p.isDirectory then (p, false)
  else
    match splitLastSlash p.path with
    | none => (p, false)
    | some (pre, post) =>
      match removeFromLastDot post with
      | none => (p, false)
      | some post2 => (⟨pre ++ post2⟩, true)

theorem splitLastSlash_eq (s : List Char) :
    splitLastSlash s =
      match rfindChar '/' s with
      | none => none
      | some i => some (s.take (i+1), s.drop (i+1)) := by
  induction s with
  | nil => rfl
  | cons a as ih =>
    show (match splitLastSlash as with
          | some (pre, post) => some (a :: pre, post)
          | none => if a = '/' then some ([a], as) else none) = _
    rw [ih]
    cases h : rfindChar '/' as with
    | some i => simp [rfindChar, h]
    | none =>
      by_cases ha : a = '/'
      · subst ha
        simp [rfindChar, h]
      · simp [rfindChar, h, ha]

theorem removeFromLastDot_eq (s : List Char) :
    removeFromLastDot s =
      match rfindChar '.' s with
      | none => none
      | some i => some (s.take i) := by
  induction s with
  | nil => rfl
  | cons a as ih =>
    show (match removeFromLastDot as with
          | some t => some (a :: t)
          | none => if a = '.' then some [] else none) = _
    rw [ih]
    cases h : rfindChar '.' as with
    | some i => simp [rfindChar, h]
    | none =>
      by_cases ha : a = '.'
      · subst ha
        simp [rfindChar, h]
      · simp [rfindChar, h, ha]

/-- C8: on every file-mode path, `elideSuffix` removes exactly the text
from the last `.` occurring after the last `/` through the end of the
string (it coincides with the function written from that description),
and `Path(\"/a/b.c.txt\").elideSuffix()` yields `/a/b.c`. -/
theorem elideSuffix_matches_spec :
    (∀ p : Path, p.isFile = true → p.elideSuffix = elideSuffixSpec p) ∧
    Path.elideSuffix ⟨"/a/b.c.txt".toList⟩ = (⟨"/a/b.c".toList⟩, true) := by
  constructor
  · intro p hf
    have hd : p.isDirectory = false := isDirectory_eq_false_of_isFile hf
    unfold Path.elideSuffix elideSuffixSpec
    rw [hd]
    simp only [Bool.false_eq_true, if_false]
    rw [splitLastSlash_eq]
    cases hs : rfindChar '/' p.path with
    | none =>
      cases hdp : rfindChar '.' p.path <;> rfl
    | some i =>
      have hilt : i < p.path.length := rfindChar_lt '/' p.path i hs
      have hpre : (p.path.take (i+1)).length = i + 1 := by
        rw [List.length_take]
        omega
      simp only []
      rw [removeFromLastDot_eq]
      cases hj : rfindChar '.' (p.path.drop (i+1)) with
      | some j =>
        have hdot : rfindChar '.' p.path =
            some ((p.path.take (i+1)).length + j) := by
          conv_lhs => rw [← List.take_append_drop (i+1) p.path]
          exact rfindChar_append_some '.' _ _ j hj
        rw [hdot]
        simp only [hpre]
        rw [if_pos (show i < i + 1 + j from by omega)]
        have htk : p.path.take (i + 1 + j) =
            p.path.take (i+1) ++ (p.path.drop (i+1)).take j := by
          conv_lhs => rw [← List.take_append_drop (i+1) p.path]
          rw [show i + 1 + j = (p.path.take (i+1)).length + j from by
            rw [hpre]]
          exact List.take_append j
        rw [htk]
      | none =>
        have hdot : rfindChar '.' p.path =
            rfindChar '.' (p.path.take (i+1)) := by
          conv_lhs => rw [← List.take_append_drop (i+1) p.path]
          exact rfindChar_append_none '.' _ _ hj
        rw [hdot]
        cases hdp : rfindChar '.' (p.path.take (i+1)) with
        | none => rfl
        | some d =>
          have hdlt : d < i + 1 := by
            have h2 := rfindChar_lt '.' _ d hdp
            rw [hpre] at h2
            exact h2
          simp only []
          rw [if_neg (show ¬(i < d) from by omega)]
  · decide

/-- Witness for C8 at the file path `/x/y.txt`. -/
theorem elideSuffix_matches_spec_witness :
    Path.elideSuffix ⟨"/x/y.txt".toList⟩ =
      elideSuffixSpec ⟨"/x/y.txt".toList⟩ :=
  elideSuffix_matches_spec.1 ⟨"/x/y.txt".toList⟩ (by decide)
/-! ### Claim C4 -/

/-- C4 counterexample: with only the bare-form library `/x/foo.dll`
readable, `GetLibraryPath("foo", ["/x/"])` returns the empty path
instead of `/x/foo.dll`: the bare `<basename>` candidates are reached
only in the `else` of a successful `appendFile("lib" + basename)`,
i.e. only when that append fails validation — not when the
`lib`-prefixed files are merely absent. -/
theorem getLibraryPath_skips_bare_form :
    Path.readable (fun s => s == "/x/foo.dll".toList)
      ⟨"/x/foo.dll".toList⟩ = true ∧
    GetLibraryPath (fun s => s == "/x/foo.dll".toList) "foo".toList
      ["/x/".toList] = ⟨[]⟩ := by decide

theorem rfindChar_none_not_mem (c : Char) (s : List Char)
    (h : rfindChar c s = none) : c ∉ s := by
  induction s with
  | nil => simp
  | cons a as ih =>
    intro hm
    simp only [rfindChar] at h
    cases hr : rfindChar c as with
    | some i =>
      rw [hr] at h
      simp at h
    | none =>
      rw [hr] at h
      by_cases ha : a = c
      · simp [ha] at h
      · rcases List.mem_cons.mp hm with h1 | h2
        · exact ha h1.symm
        · exact ih hr h2

/-- Appending a tail with no colon, no illegal characters, and a last
character other than dot, space or slash preserves `isValid`. -/
theorem isValid_append {s t : List Char} (c : Char)
    (hv : (Path.mk s).isValid = true)
    (ht0 : t ≠ []) (htc : ':' ∉ t) (hti : t.any isIllegalChar = false)
    (hgl : t.getLast? = some c)
    (hcd : c ≠ '.') (hcs : c ≠ ' ') (hcsl : c ≠ '/') :
    (Path.mk (s ++ t)).isValid = true := by
  have hs : s ≠ [] := isValid_ne_nil hv
  have hst : s ++ t ≠ [] := by simp [hs]
  have hgl2 : (s ++ t).getLast? = some c := by
    rw [List.getLast?_append_of_ne_nil _ ht0]
    exact hgl
  unfold Path.isValid at hv ⊢
  rw [if_neg hs] at hv
  rw [if_neg hst]
  simp only [Bool.and_eq_true] at hv
  obtain ⟨⟨⟨⟨⟨hA, hB⟩, hC⟩, hD⟩, hE⟩, hF⟩ := hv
  simp only [Bool.and_eq_true]
  refine ⟨⟨⟨⟨⟨?_, ?_⟩, ?_⟩, ?_⟩, ?_⟩, ?_⟩
  · -- colon conjunct
    rw [rfindChar_append_none ':' s t (rfindChar_eq_none ':' t htc)]
    cases hcol : rfindChar ':' s with
    | none => rfl
    | some pos =>
      rw [hcol] at hA
      cases s with
      | nil => exact absurd rfl hs
      | cons c0 s' =>
        simp only [List.cons_append]
        simp only [Bool.and_eq_true, decide_eq_true_eq] at hA ⊢
        obtain ⟨⟨hp1, hp2⟩, hp3⟩ := hA
        refine ⟨⟨hp1, hp2⟩, ?_⟩
        simp only [List.length_cons, List.length_append] at hp3 ⊢
        omega
  · simp only [List.any_append, Bool.not_eq_true', Bool.or_eq_false_iff]
    simp only [Bool.not_eq_true'] at hB
    exact ⟨hB, hti⟩
  · simp [hgl2, hcd]
  · simp [hgl2, hcsl]
  · simp [hgl2, hcs]
  · simp [hgl2, hcsl]


/-- `elideSuffix` right after an `appendSuffix` of a dot-free,
slash-free suffix restores the base, whenever the base contains a
slash. -/
theorem elideSuffix_strip_fixed (base x : List Char) (k : Nat)
    (hx : '/' ∉ x) (hxd : '.' ∉ x) (hx0 : x ≠ [])
    (hk : rfindChar '/' base = some k) :
    (Path.mk (base ++ '.' :: x)).elideSuffix = (⟨base⟩, true) := by
  obtain ⟨c, hc⟩ : ∃ c, x.getLast? = some c := by
    cases hgl : x.getLast? with
    | none => exact absurd (List.getLast?_eq_none_iff.mp hgl) hx0
    | some c => exact ⟨c, rfl⟩
  have hcne : c ≠ '/' := fun e => hx (e ▸ getLast?_mem hc)
  have hgl2 : (base ++ '.' :: x).getLast? = some c := by
    rw [List.getLast?_append_of_ne_nil _ (by simp),
        show ('.' :: x) = ['.'] ++ x from rfl,
        List.getLast?_append_of_ne_nil _ hx0]
    exact hc
  have hdirF := isDirectory_eq_false_of_getLast hgl2 hcne
  have hdotx : rfindChar '.' ('.' :: x) = some 0 := by
    simp [rfindChar, rfindChar_eq_none '.' x hxd]
  have hdot : rfindChar '.' (base ++ '.' :: x) = some (base.length + 0) :=
    rfindChar_append_some '.' base _ 0 hdotx
  have hslx : '/' ∉ ('.' :: x) := by
    intro hm
    rcases List.mem_cons.mp hm with h1 | h2
    · exact absurd h1 (by decide)
    · exact hx h2
  have hslash : rfindChar '/' (base ++ '.' :: x) = some k := by
    rw [rfindChar_append_none '/' base _ (rfindChar_eq_none '/' _ hslx)]
    exact hk
  have hklt : k < base.length := rfindChar_lt '/' base k hk
  unfold Path.elideSuffix
  simp only [hdirF, Bool.false_eq_true, if_false, hdot, hslash, Nat.add_zero]
  rw [if_pos hklt, List.take_left]

/-- The four suffix forms probed for one base file name, in source
order: `dll`, `a`, `o`, `bc`. -/
def suffixCandidates (base : List Char) : List (List Char) :=
  [base ++ '.' :: "dll".toList, base ++ '.' :: "a".toList,
   base ++ '.' :: "o".toList, base ++ '.' :: "bc".toList]

/-- First candidate in a list that the filesystem oracle reports
readable. -/
def firstReadable (fs : List Char → Bool) : List (List Char) → Option (List Char)
  | [] => none
  | c :: cs => if fs c then some c else firstReadable fs cs

theorem firstReadable_append (fs : List Char → Bool)
    (xs ys : List (List Char)) :
    firstReadable fs (xs ++ ys) =
      match firstReadable fs xs with
      | some c => some c
      | none => firstReadable fs ys := by
  induction xs with
  | nil => rfl
  | cons a as ih =>
    simp only [List.cons_append, firstReadable]
    by_cases ha : fs a <;> simp [ha, ih]

theorem appendSuffix_fixed (base y : List Char) (cy : Char)
    (hv : (Path.mk base).isValid = true)
    (hnd : (Path.mk base).isDirectory = false)
    (hy0 : y ≠ []) (hyc : ':' ∉ ('.' :: y))
    (hyi : ('.' :: y).any isIllegalChar = false)
    (hygl : y.getLast? = some cy)
    (hyd : cy ≠ '.') (hys : cy ≠ ' ') (hysl : cy ≠ '/') :
    (Path.mk base).appendSuffix y = (⟨base ++ '.' :: y⟩, true) := by
  have hgl : ('.' :: y).getLast? = some cy := by
    rw [show ('.' :: y) = ['.'] ++ y from rfl,
        List.getLast?_append_of_ne_nil _ hy0]
    exact hygl
  have hvy : (Path.mk (base ++ '.' :: y)).isValid = true :=
    isValid_append cy hv (by simp) hyc hyi hgl hyd hys hysl
  unfold Path.appendSuffix
  rw [hnd, if_neg (by simp), if_pos hvy]

theorem tryForm_fixed (fs : List Char → Bool) (base x y : List Char)
    (k : Nat) (cy : Char)
    (hv : (Path.mk base).isValid = true)
    (hnd : (Path.mk base).isDirectory = false)
    (hk : rfindChar '/' base = some k)
    (hx : '/' ∉ x) (hxd : '.' ∉ x) (hx0 : x ≠ [])
    (hy0 : y ≠ []) (hyc : ':' ∉ ('.' :: y))
    (hyi : ('.' :: y).any isIllegalChar = false)
    (hygl : y.getLast? = some cy)
    (hyd : cy ≠ '.') (hys : cy ≠ ' ') (hysl : cy ≠ '/') :
    tryForm fs ⟨base ++ '.' :: x⟩ y =
      (⟨base ++ '.' :: y⟩, fs (base ++ '.' :: y)) := by
  unfold tryForm
  rw [elideSuffix_strip_fixed base x k hx hxd hx0 hk]
  simp only []
  rw [appendSuffix_fixed base y cy hv hnd hy0 hyc hyi hygl hyd hys hysl]
  simp [Path.readable]


theorem probeSuffixes_of_isDirectory (fs : List Char → Bool) {p : Path}
    (hd : p.isDirectory = true) : probeSuffixes fs p = (p, false) := by
  have h1 : p.appendSuffix GetDLLSuffix = (p, false) :=
    appendSuffix_of_isDirectory _ hd
  have h2 : tryForm fs p "a".toList = (p, false) := by
    unfold tryForm
    rw [elideSuffix_of_isDirectory hd]
    simp
  have h3 : tryForm fs p "o".toList = (p, false) := by
    unfold tryForm
    rw [elideSuffix_of_isDirectory hd]
    simp
  have h4 : tryForm fs p "bc".toList = (p, false) := by
    unfold tryForm
    rw [elideSuffix_of_isDirectory hd]
    simp
  simp only [probeSuffixes]
  rw [h1]
  simp only [Bool.false_and, Bool.false_eq_true, if_false]
  rw [h2]
  simp only [Bool.false_eq_true, if_false]
  rw [h3]
  simp only [Bool.false_eq_true, if_false]
  rw [h4]
  simp only [Bool.false_eq_true, if_false]

/-- The inner probe chain of `IsLibrary` returns exactly the first
readable suffix candidate of a valid file-mode base containing a
slash. -/
theorem probeSuffixes_eq (fs : List Char → Bool) (base : List Char) (k : Nat)
    (hv : (Path.mk base).isValid = true)
    (hnd : (Path.mk base).isDirectory = false)
    (hk : rfindChar '/' base = some k) :
    probeSuffixes fs ⟨base⟩ =
      match firstReadable fs (suffixCandidates base) with
      | some c => (⟨c⟩, true)
      | none => (⟨base ++ '.' :: "bc".toList⟩, false) := by
  have ha1 : (Path.mk base).appendSuffix "dll".toList =
      (⟨base ++ '.' :: "dll".toList⟩, true) :=
    appendSuffix_fixed base "dll".toList 'l' hv hnd (by decide) (by decide)
      (by decide) (by decide) (by decide) (by decide) (by decide)
  have ht2 := tryForm_fixed fs base "dll".toList "a".toList k 'a' hv hnd hk
      (by decide) (by decide) (by decide) (by decide) (by decide) (by decide)
      (by decide) (by decide) (by decide) (by decide)
  have ht3 := tryForm_fixed fs base "a".toList "o".toList k 'o' hv hnd hk
      (by decide) (by decide) (by decide) (by decide) (by decide) (by decide)
      (by decide) (by decide) (by decide) (by decide)
  have ht4 := tryForm_fixed fs base "o".toList "bc".toList k 'c' hv hnd hk
      (by decide) (by decide) (by decide) (by decide) (by decide) (by decide)
      (by decide) (by decide) (by decide) (by decide)
  simp only [probeSuffixes, GetDLLSuffix]
  rw [ha1]
  simp only [Path.readable, Bool.true_and, suffixCandidates, firstReadable]
  by_cases h1 : fs (base ++ '.' :: "dll".toList) = true
  · rw [if_pos h1, if_pos h1]
  · rw [if_neg h1, if_neg h1, ht2]
    by_cases h2 : fs (base ++ '.' :: "a".toList) = true
    · rw [if_pos h2, if_pos h2]
    · rw [if_neg h2, if_neg h2, ht3]
      by_cases h3 : fs (base ++ '.' :: "o".toList) = true
      · rw [if_pos h3, if_pos h3]
      · rw [if_neg h3, if_neg h3, ht4]
        by_cases h4 : fs (base ++ '.' :: "bc".toList) = true
        · rw [if_pos h4, if_pos h4]
        · rw [if_neg h4, if_neg h4]


/-- A committed `setDirectory` string that is not directory-mode is a
single non-slash character, hence contains no slash at all. -/
theorem setDirString_not_dir_no_slash (a : List Char)
    (hv : (Path.mk (setDirString a)).isValid = true)
    (hnd : (Path.mk (setDirString a)).isDirectory = false) :
    '/' ∉ setDirString a := by
  have hne : setDirString a ≠ [] := isValid_ne_nil hv
  have hlast : ¬((setDirString a).getLast? = some '/') := by
    intro h
    rw [Path.isDirectory, hv, h] at hnd
    simp at hnd
  intro hmem
  unfold setDirString at hne hlast hmem
  by_cases hcond : (decide (a.length - 1 ≠ 0) &&
      decide (a.getLast? ≠ some '/')) = true
  · rw [if_pos hcond] at hlast
    exact hlast (by simp)
  · rw [if_neg hcond] at hne hlast hmem
    by_cases hlen : a.length - 1 = 0
    · have ha0 : a ≠ [] := by
        intro e
        subst e
        simp [flipBackSlashes] at hne
      have hl1 : a.length = 1 := by
        have := List.length_pos.mpr ha0
        omega
      obtain ⟨c, rfl⟩ : ∃ c, a = [c] := by
        cases a with
        | nil => simp at hl1
        | cons c t =>
          cases t with
          | nil => exact ⟨c, rfl⟩
          | cons d t2 => simp at hl1
      simp only [flipBackSlashes, List.map_cons, List.map_nil,
        List.mem_singleton] at hmem
      exact hlast (by simp [flipBackSlashes, ← hmem])
    · have hsl : a.getLast? = some '/' := by
        by_contra hno
        apply hcond
        simp [hlen, hno]
      have hfl : (flipBackSlashes a).getLast? = some '/' := by
        rw [flipBackSlashes, List.getLast?_map, hsl]
        simp
      exact hlast hfl

/-- Modelled from the amended claim wording: the candidate file names
probed while scanning one search directory `a`: when `setDirectory(a)`
commits a directory-mode string and appending `lib<basename>` yields a
valid file-mode path, the four lib-prefixed suffix forms, in order;
otherwise the directory contributes no candidate (in particular the
bare `<basename>` form is never probed on this code path). -/
def dirCandidates (basename a : List Char) : List (List Char) :=
  if a.length ≠ 0 ∧ (Path.mk (setDirString a)).isValid = true ∧
     (Path.mk (setDirString a)).isDirectory = true ∧
     (Path.mk (setDirString a ++ ("lib".toList ++ basename))).isValid
       = true ∧
     (Path.mk (setDirString a ++ ("lib".toList ++ basename))).isDirectory
       = false
  then suffixCandidates (setDirString a ++ ("lib".toList ++ basename))
  else []

/-- `IsLibrary`, called on a committed `setDirectory` string, probes
exactly the four lib-prefixed suffix candidates (when the mode and
validity gates allow) and clears the path otherwise; the bare
`<basename>` branch is never reached with a readable result. -/
theorem IsLibrary_eq (fs : List Char → Bool) (basename d' : List Char)
    (_hv : (Path.mk d').isValid = true)
    (hnos : (Path.mk d').isDirectory = false → '/' ∉ d') :
    IsLibrary fs ⟨d'⟩ basename =
      (if (Path.mk d').isDirectory = true ∧
          (Path.mk (d' ++ ("lib".toList ++ basename))).isValid = true ∧
          (Path.mk (d' ++ ("lib".toList ++ basename))).isDirectory = false
       then
         match firstReadable fs
             (suffixCandidates (d' ++ ("lib".toList ++ basename))) with
         | some c => (⟨c⟩, true)
         | none => (⟨[]⟩, false)
       else (⟨[]⟩, false)) := by
  cases hd0 : (Path.mk d').isDirectory with
  | false =>
    have hmem : '/' ∉ d' := hnos hd0
    have hap : (Path.mk d').appendFile ("lib".toList ++ basename) =
        (⟨d'⟩, false) := by
      unfold Path.appendFile
      rw [hd0]
      simp only []
      rw [if_pos (by decide)]
    have hel : (Path.mk d').elideFile = (⟨d'⟩, false) := by
      unfold Path.elideFile
      rw [hd0]
      rw [if_neg (by simp), rfindChar_eq_none '/' d' hmem]
    simp only [IsLibrary]
    rw [hap]
    simp only [Bool.false_eq_true, if_false]
    rw [hel]
    simp only [Bool.false_eq_true, if_false]
    rw [if_neg (by simp)]
  | true =>
    cases hbv : (Path.mk (d' ++ ("lib".toList ++ basename))).isValid with
    | false =>
      have hap : (Path.mk d').appendFile ("lib".toList ++ basename) =
          (⟨d'⟩, false) := by
        unfold Path.appendFile
        rw [hd0]
        simp only []
        rw [if_neg (by decide), if_neg (by simp only [hbv]; decide)]
      simp only [IsLibrary]
      rw [hap]
      simp only [Bool.false_eq_true, if_false]
      rw [elideFile_of_isDirectory hd0]
      simp only [Bool.false_eq_true, if_false]
      rw [if_neg (by simp [hbv])]
    | true =>
      have hap : (Path.mk d').appendFile ("lib".toList ++ basename) =
          (⟨d' ++ ("lib".toList ++ basename)⟩, true) := by
        unfold Path.appendFile
        rw [hd0]
        simp only []
        rw [if_neg (by decide), if_pos hbv]
      cases hbd : (Path.mk (d' ++ ("lib".toList ++ basename))).isDirectory
          with
      | true =>
        simp only [IsLibrary]
        rw [hap]
        simp only []
        rw [if_pos trivial, probeSuffixes_of_isDirectory fs hbd]
        simp only [Bool.false_eq_true, if_false]
        rw [if_neg (by simp [hbd])]
      | false =>
        have hmem : '/' ∈ d' ++ ("lib".toList ++ basename) :=
          List.mem_append.mpr
            (Or.inl (getLast?_mem (isDirectory_getLast hd0)))
        obtain ⟨k, hk⟩ : ∃ k,
            rfindChar '/' (d' ++ ("lib".toList ++ basename)) = some k := by
          cases hrf : rfindChar '/' (d' ++ ("lib".toList ++ basename)) with
          | none => exact absurd hmem (rfindChar_none_not_mem _ _ hrf)
          | some k => exact ⟨k, rfl⟩
        simp only [IsLibrary]
        rw [hap]
        simp only []
        rw [if_pos trivial, probeSuffixes_eq fs _ k hbv hbd hk]
        cases hfr : firstReadable fs
            (suffixCandidates (d' ++ ("lib".toList ++ basename))) with
        | some c => simp
        | none => simp


/-- One directory step of `GetLibraryPath`: it succeeds exactly when
some candidate of that directory is readable, and then returns the
first such candidate. -/
theorem tryLibDir_eq (fs : List Char → Bool) (basename a : List Char)
    (result : Path) :
    ((tryLibDir fs basename a result).2 =
       (firstReadable fs (dirCandidates basename a)).isSome) ∧
    (∀ c, firstReadable fs (dirCandidates basename a) = some c →
       (tryLibDir fs basename a result).1 = ⟨c⟩) := by
  by_cases h0 : a.length = 0
  · have hsd : result.setDirectory a = (result, false) := by
      unfold Path.setDirectory
      rw [if_pos h0]
    have hdc : dirCandidates basename a = [] := by
      unfold dirCandidates
      rw [if_neg (by tauto)]
    simp only [tryLibDir, hsd, hdc, Bool.false_eq_true, if_false,
      firstReadable]
    simp
  · by_cases hv : (Path.mk (setDirString a)).isValid = true
    · have hsd : result.setDirectory a = (⟨setDirString a⟩, true) := by
        unfold Path.setDirectory
        rw [if_neg h0, if_pos hv]
      simp only [tryLibDir, hsd]
      rw [if_pos (by trivial)]
      rw [IsLibrary_eq fs basename (setDirString a) hv
        (setDirString_not_dir_no_slash a hv)]
      unfold dirCandidates
      by_cases hcond : (Path.mk (setDirString a)).isDirectory = true ∧
          (Path.mk (setDirString a ++ ("lib".toList ++ basename))).isValid
            = true ∧
          (Path.mk (setDirString a ++
            ("lib".toList ++ basename))).isDirectory = false
      · rw [if_pos hcond, if_pos ⟨h0, hv, hcond.1, hcond.2.1, hcond.2.2⟩]
        constructor
        · cases hfr : firstReadable fs
              (suffixCandidates (setDirString a ++
                ("lib".toList ++ basename))) <;> simp [hfr]
        · intro c hc
          rw [hc]
      · rw [if_neg hcond, if_neg (by tauto)]
        simp [firstReadable]
    · have hsd : result.setDirectory a = (result, false) := by
        unfold Path.setDirectory
        rw [if_neg h0, if_neg hv]
      have hdc : dirCandidates basename a = [] := by
        unfold dirCandidates
        rw [if_neg (by tauto)]
      simp only [tryLibDir, hsd, hdc, Bool.false_eq_true, if_false,
        firstReadable]
      simp


/-- Modelled from the amended claim wording: all candidate file names
probed by `GetLibraryPath`, in probe order — for each search directory
(caller-supplied list first, then `/usr/lib/`, then `/lib/`), the
directory contributes its `dirCandidates`. -/
def searchCandidates (basename : List Char)
    (dirs : List (List Char)) : List (List Char) :=
  ((dirs ++ ["/usr/lib/".toList, "/lib/".toList]).map
    (dirCandidates basename)).flatten

/-- Modelled from the amended claim wording of `GetLibraryPath`: the
result is the first readable candidate in probe order, or the empty
(invalid) path when no candidate is readable anywhere. -/
def GetLibraryPathSpec (fs : List Char → Bool) (basename : List Char)
    (LibPaths : List (List Char)) : Path :=
  match firstReadable fs (searchCandidates basename LibPaths) with
  | some c => ⟨c⟩
  | none => ⟨[]⟩

/-- The search loop of `GetLibraryPath` returns the first readable
candidate over all search directories in order, or the empty path. -/
theorem GetLibraryPathAux_eq (fs : List Char → Bool)
    (basename : List Char) :
    ∀ (dirs : List (List Char)) (result : Path),
      GetLibraryPathAux fs basename dirs result =
        match firstReadable fs (searchCandidates basename dirs) with
        | some c => ⟨c⟩
        | none => ⟨[]⟩
  | [], result => by
    obtain ⟨hu2, hu1⟩ := tryLibDir_eq fs basename "/usr/lib/".toList result
    simp only [GetLibraryPathAux, searchCandidates, List.nil_append,
      List.map_cons, List.map_nil, List.flatten_cons, List.flatten_nil,
      List.append_nil]
    rw [hu2, firstReadable_append]
    cases hfu : firstReadable fs (dirCandidates basename
        "/usr/lib/".toList) with
    | some c =>
      simp only [Option.isSome_some, if_true]
      exact hu1 c hfu
    | none =>
      simp only [Option.isSome_none, Bool.false_eq_true, if_false]
      obtain ⟨hl2, hl1⟩ := tryLibDir_eq fs basename "/lib/".toList
        (tryLibDir fs basename "/usr/lib/".toList result).1
      rw [hl2]
      cases hfl : firstReadable fs (dirCandidates basename
          "/lib/".toList) with
      | some c =>
        simp only [Option.isSome_some, if_true]
        exact hl1 c hfl
      | none =>
        simp only [Option.isSome_none, Bool.false_eq_true, if_false]
  | a :: rest, result => by
    obtain ⟨ha2, ha1⟩ := tryLibDir_eq fs basename a result
    simp only [GetLibraryPathAux, searchCandidates, List.cons_append,
      List.map_cons, List.flatten_cons]
    rw [ha2, firstReadable_append]
    cases hfa : firstReadable fs (dirCandidates basename a) with
    | some c =>
      simp only [Option.isSome_some, if_true]
      exact ha1 c hfa
    | none =>
      simp only [Option.isSome_none, Bool.false_eq_true, if_false]
      have ih := GetLibraryPathAux_eq fs basename rest
        (tryLibDir fs basename a result).1
      rw [ih]
      simp only [searchCandidates]


/-- C4 (amended): for every filesystem oracle, basename and search
list, `GetLibraryPath` equals the function written from the amended
wording: the first readable candidate among, per search directory in
order (caller list, then `/usr/lib/`, then `/lib/`), the four
lib-prefixed forms `lib<basename>.dll|.a|.o|.bc` in that order
(probed only when the committed directory string is directory-mode and
the lib-prefixed name validates as a file-mode path — the bare
`<basename>` form is never probed on this code path), or the empty
path when nothing is readable.  The ground conjuncts pin the concrete
scenarios: `/x/libfoo.a` found, `dll` beating `a`, `a` beating `o`
beating `bc`, one caller directory beating the next, the lib-prefixed
form beating a bare `foo.dll`, a caller directory beating `/usr/lib/`,
`/usr/lib/` beating `/lib/`, and the empty path when nothing
matches. -/
theorem getLibraryPath_probe_order :
    (∀ (fs : List Char → Bool) (basename : List Char)
        (LibPaths : List (List Char)),
      GetLibraryPath fs basename LibPaths =
        GetLibraryPathSpec fs basename LibPaths) ∧
    GetLibraryPath (fun s => s == "/x/libfoo.a".toList) "foo".toList
      ["/x/".toList] = ⟨"/x/libfoo.a".toList⟩ ∧
    GetLibraryPath
      (fun s => s == "/x/libfoo.dll".toList || s == "/x/libfoo.a".toList)
      "foo".toList ["/x/".toList] = ⟨"/x/libfoo.dll".toList⟩ ∧
    GetLibraryPath
      (fun s => s == "/x/libfoo.o".toList || s == "/x/libfoo.bc".toList)
      "foo".toList ["/x/".toList] = ⟨"/x/libfoo.o".toList⟩ ∧
    GetLibraryPath (fun s => s == "/x/libfoo.bc".toList) "foo".toList
      ["/x/".toList] = ⟨"/x/libfoo.bc".toList⟩ ∧
    GetLibraryPath (fun s => s == "/y/libfoo.a".toList) "foo".toList
      ["/x/".toList, "/y/".toList] = ⟨"/y/libfoo.a".toList⟩ ∧
    GetLibraryPath
      (fun s => s == "/x/libfoo.a".toList || s == "/x/foo.dll".toList)
      "foo".toList ["/x/".toList] = ⟨"/x/libfoo.a".toList⟩ ∧
    GetLibraryPath
      (fun s => s == "/x/libfoo.a".toList ||
                s == "/usr/lib/libfoo.dll".toList)
      "foo".toList ["/x/".toList] = ⟨"/x/libfoo.a".toList⟩ ∧
    GetLibraryPath
      (fun s => s == "/usr/lib/libfoo.a".toList ||
                s == "/lib/libfoo.dll".toList)
      "foo".toList [] = ⟨"/usr/lib/libfoo.a".toList⟩ ∧
    GetLibraryPath (fun _ => false) "foo".toList ["/x/".toList] = ⟨[]⟩ :=
  ⟨fun fs basename LibPaths => by
      unfold GetLibraryPath GetLibraryPathSpec
      exact GetLibraryPathAux_eq fs basename LibPaths ⟨[]⟩,
   by decide, by decide, by decide, by decide, by decide, by decide,
   by decide, by decide, by decide⟩

/-! ### Claim C9 -/

/-- C9 counterexample: a file that cannot be opened: the read extracts
no bytes at all — a failed read — yet `isBytecodeFile` reports no I/O
error and silently returns false, because the source checks only
`f.bad()` (badbit), which a failed open or short read does not set. -/
theorem isBytecodeFile_silent_on_failed_read :
    Path.isBytecodeFile (fun _ => none) (fun _ => false) 'Z' 'Z' 'Z'
      ⟨"/a/f".toList⟩ = .ok false := by rfl

/-- C9 (amended): `isBytecodeFile` signals the I/O error exactly when
the stream is bad (badbit); when the stream is not bad and the file
yields at least 4 bytes, it returns precisely whether those first 4
bytes equal the tag `llvc` or `llvm`; a short or failed read without
badbit silently returns the comparison against the partially filled
buffer. -/
theorem isBytecodeFile_spec (contents : List Char → Option (List Char))
    (badbit : List Char → Bool) (u1 u2 u3 : Char) (p : Path)
    (d : List Char) :
    (badbit p.path = true →
      Path.isBytecodeFile contents badbit u1 u2 u3 p =
        .error "can\x27t read file signature".toList) ∧
    (badbit p.path = false → contents p.path = some d → 4 ≤ d.length →
      Path.isBytecodeFile contents badbit u1 u2 u3 p =
        .ok (d.take 4 == "llvc".toList || d.take 4 == "llvm".toList)) := by
  constructor
  · intro hb
    simp [Path.isBytecodeFile, hb]
  · intro hb hc hlen
    have h4 : (d.take 4).length = 4 := by
      rw [List.length_take]
      omega
    simp [Path.isBytecodeFile, hb, hc, h4]

/-- Witness for C9 (amended): a 12-byte file starting `llvm` is
recognized when the stream is good, and the error is signalled when the
stream is bad. -/
theorem isBytecodeFile_spec_witness :
    Path.isBytecodeFile (fun _ => some "llvm-bitcode".toList)
        (fun _ => false) 'Z' 'Z' 'Z' ⟨"/a/f".toList⟩ =
      .ok ("llvm-bitcode".toList.take 4 == "llvc".toList ||
           "llvm-bitcode".toList.take 4 == "llvm".toList) ∧
    Path.isBytecodeFile (fun _ => some "llvm-bitcode".toList)
        (fun _ => true) 'Z' 'Z' 'Z' ⟨"/a/f".toList⟩ =
      .error "can\x27t read file signature".toList :=
  ⟨(isBytecodeFile_spec (fun _ => some "llvm-bitcode".toList)
      (fun _ => false) 'Z' 'Z' 'Z' ⟨"/a/f".toList⟩
      "llvm-bitcode".toList).2 rfl rfl (by decide),
   (isBytecodeFile_spec (fun _ => some "llvm-bitcode".toList)
      (fun _ => true) 'Z' 'Z' 'Z' ⟨"/a/f".toList⟩
      "llvm-bitcode".toList).1 rfl⟩

end LLVMSys
